import Mathlib

/-!
Verification of the core maze library of the mazegen repository
(src/maze.c, src/mazegen.c) against its natural-language specification.

The embedding is a shallow one:

* A cell (`maze_node` in maze.h) is a record of two wall bits, a
  2-bit direction marker and a visited bit.
* The cell array `mp->cells` is a `List maze_node` in row-major order;
  `CELLV(mp, r, c)` is entry `r * n_cols + c`.  Reads out of range
  return the all-walls default cell (in C such an access is undefined
  behaviour); writes out of range are dropped.
* The union-find array `mp->sets` is a function `ℕ → ℕ`.
* `rowcol_t` is `unsigned int`; coordinate arithmetic in
  `maze_find_path` wraps modulo 2^32 (`dec32`, `inc32`), which matters
  because the path-marking loop can step above row 0.
* The injected random source `rand_f` is a stream `ℕ → ℚ` of values
  consumed in order; a C cast `(rowcol_t)(v * k)` is `Int.toNat ⌊v * k⌋`
  for the nonnegative values involved.
* Fallible code (malloc, possibly non-terminating loops) is embedded
  with explicit allocation flags and fuel, returning `Option`.

The header maze.h is not in src/.  Its direction constants DIR_U = 0,
DIR_R = 1, DIR_D = 2, DIR_L = 3 (forced by the rotation arithmetic
`(c_dir + 1) % 4` together with the spec's rotation cycle
Up→Right→Down→Left→Up, and by the opposite-direction arithmetic) are
embedded as the inductive `Dir` with `Dir.next` as `+1 mod 4` and
`Dir.opposite` as `+2 mod 4`.  The `EXIT`/`EPOS`/`EDIR` macros are
modelled from the spec as the record `exit_t` (a boundary side plus an
offset along that side).
-/

namespace Mazegen

/-- Direction constants DIR_U, DIR_R, DIR_D, DIR_L from maze.h (values
0..3; see the header comment about the missing header). -/
inductive Dir where
  | U : Dir
  | R : Dir
  | D : Dir
  | L : Dir
deriving DecidableEq, Repr

/-- Successor direction in the rotation cycle: `(d + 1) % 4` on the
numeric constants, i.e. Up→Right→Down→Left→Up. -/
def Dir.next : Dir → Dir
  | .U => .R
  | .R => .D
  | .D => .L
  | .L => .U

/-- Opposite direction: `(d + 2) % 4` on the numeric constants. -/
def Dir.opposite : Dir → Dir
  | .U => .D
  | .R => .L
  | .D => .U
  | .L => .R

/-- A maze cell: the packed bitfield struct maze_node of maze.h,
with the fields named as in maze.c (`r_wall`, `b_wall`, `marker`,
`visit`). -/
structure maze_node where
  r_wall : Bool
  b_wall : Bool
  marker : Dir
  visit : Bool
deriving DecidableEq, Repr

/-- The cell state written by maze_reset: both walls present, marker
up, visited off. -/
def def_node : maze_node :=
  { r_wall := true, b_wall := true, marker := Dir.U, visit := false }

/-- Modelled from the spec: maze.h with the `EXIT`, `EPOS`, `EDIR`
macros is not in src/.  Per spec §3 an exit descriptor encodes a
boundary side (a `Dir`) and an offset along that side; `EXIT(p, d)`
builds one, `EPOS`/`EDIR` project. -/
structure exit_t where
  epos : ℕ
  edir : Dir
deriving DecidableEq, Repr

/-- The maze structure maze_t (maze.h): dimensions, the row-major cell
array and the two exit descriptors.  The transient `sets` pointer is
threaded separately through the generator embedding. -/
structure maze_t where
  n_rows : ℕ
  n_cols : ℕ
  cells : List maze_node
  exit_1 : exit_t
  exit_2 : exit_t
deriving DecidableEq, Repr

/-- Cell read `CELLV(mp, r, c)` via a flat offset; out-of-range reads
(undefined behaviour in C) return the default cell. -/
def getCell (cells : List maze_node) (off : ℕ) : maze_node :=
  cells.getD off def_node

/-- Embeds s_can_move (maze.c lines 53-67) including its boundary
tests exactly as written: note that the DIR_R case tests
`c < n_cols`, not `c < n_cols - 1`. -/
def s_can_move (nr nc : ℕ) (cells : List maze_node) (r c : ℕ) (dir : Dir) : Bool :=
  match dir with
  | .U => decide (0 < r) && !(getCell cells ((r - 1) * nc + c)).b_wall
  | .R => decide (c < nc) && !(getCell cells (r * nc + c)).r_wall
  | .D => decide (r < nr - 1) && !(getCell cells (r * nc + c)).b_wall
  | .L => decide (0 < c) && !(getCell cells (r * nc + (c - 1))).r_wall

/-- Embeds maze_reset (maze.c lines 286-301): every in-range cell is
set to the all-walls default. -/
def maze_reset_cells (nr nc : ℕ) (cells : List maze_node) : List maze_node :=
  cells.mapIdx fun i cell => if i < nr * nc then def_node else cell

/-- maze_reset acting on the whole structure. -/
def maze_reset (mp : maze_t) : maze_t :=
  { mp with cells := maze_reset_cells mp.n_rows mp.n_cols mp.cells }

/-- Embeds maze_unmark (maze.c lines 310-322): clear every in-range
cell's visited bit and point its marker up; walls untouched. -/
def maze_unmark_cells (nr nc : ℕ) (cells : List maze_node) : List maze_node :=
  cells.mapIdx fun i cell =>
    if i < nr * nc then { cell with marker := Dir.U, visit := false } else cell

/-- maze_unmark acting on the whole structure. -/
def maze_unmark (mp : maze_t) : maze_t :=
  { mp with cells := maze_unmark_cells mp.n_rows mp.n_cols mp.cells }

/-- Embeds maze_init (maze.c lines 140-158): on allocation success the
cell array is allocated and immediately maze_reset (so it is the
all-walls state), and the exits default to `EXIT(0, DIR_L)` and
`EXIT(nr - 1, DIR_R)`. -/
def maze_init (nr nc : ℕ) (alloc_ok : Bool) : Option maze_t :=
  if alloc_ok then
    some { n_rows := nr, n_cols := nc,
           cells := List.replicate (nr * nc) def_node,
           exit_1 := { epos := 0, edir := Dir.L },
           exit_2 := { epos := nr - 1, edir := Dir.R } }
  else none

/-- Embeds the SOLN_DEFAULT exit decoding of mazegen.c (lines 350-393):
the grid cell an exit descriptor denotes, used as a default solver
endpoint. -/
def soln_cell (mp : maze_t) (e : exit_t) : ℕ × ℕ :=
  match e.edir with
  | .U => (0, e.epos)
  | .D => (mp.n_rows - 1, e.epos)
  | .L => (e.epos, 0)
  | .R => (e.epos, mp.n_cols - 1)

/-- The modulus of the 32-bit unsigned `rowcol_t`. -/
def W32 : ℕ := 2 ^ 32

/-- Unsigned 32-bit decrement (`r--` on `rowcol_t`): wraps at 0. -/
def dec32 (x : ℕ) : ℕ := (x + (W32 - 1)) % W32

/-- Unsigned 32-bit increment (`r++` on `rowcol_t`). -/
def inc32 (x : ℕ) : ℕ := (x + 1) % W32

/-- Write a cell's marker (`CELLV(mp, r, c).marker = d`); out-of-range
writes (undefined behaviour in C) are dropped. -/
def setMarker (cells : List maze_node) (off : ℕ) (d : Dir) : List maze_node :=
  cells.set off { getCell cells off with marker := d }

/-- Write a cell's visited bit (`CELLV(mp, r, c).visit = 1`). -/
def setVisit (cells : List maze_node) (off : ℕ) : List maze_node :=
  cells.set off { getCell cells off with visit := true }

/-- The inner direction-probing loop of maze_find_path (lines 461-469):
starting one step after `d` in rotation order, return the first of the
next `k` directions that s_can_move allows, if any. -/
def try_dirs (nr nc : ℕ) (cells : List maze_node) (r c : ℕ) : ℕ → Dir → Option Dir
  | 0, _ => none
  | k + 1, d =>
      let d' := d.next
      if s_can_move nr nc cells r c d' then some d' else try_dirs nr nc cells r c k d'

/-- The coordinate change of the movement switches in maze_find_path
(lines 478-495 and 508-516), with unsigned wrap-around. -/
def step_move (r c : ℕ) (d : Dir) : ℕ × ℕ :=
  match d with
  | .U => (dec32 r, c)
  | .R => (r, inc32 c)
  | .D => (inc32 r, c)
  | .L => (r, dec32 c)

/-- One iteration of the forward search loop of maze_find_path (the
part after the goal test, lines 458-495): probe the four directions
starting after the current cell's marker; on success record the chosen
direction in the current cell's marker; then move (on failure of all
four probes, in the direction of the unchanged marker, as the C does)
and point the entered cell's marker back the way we came. -/
def forward_step (nr nc : ℕ) (cells : List maze_node) (r c : ℕ) :
    List maze_node × ℕ × ℕ :=
  let m := (getCell cells (r * nc + c)).marker
  match try_dirs nr nc cells r c 4 m with
  | some d =>
      let cells1 := setMarker cells (r * nc + c) d
      let rc := step_move r c d
      (setMarker cells1 (rc.1 * nc + rc.2) d.opposite, rc)
  | none =>
      let rc := step_move r c m
      (setMarker cells (rc.1 * nc + rc.2) m.opposite, rc)

/-- The forward search loop of maze_find_path (lines 452-496), with
fuel: stop when the goal is reached, else take a forward_step. -/
def find_loop (nr nc : ℕ) :
    ℕ → List maze_node → ℕ → ℕ → ℕ → ℕ → Option (List maze_node × ℕ × ℕ)
  | 0, _, _, _, _, _ => none
  | fuel + 1, cells, r, c, er, ec =>
      if r = er ∧ c = ec then some (cells, r, c)
      else
        let s := forward_step nr nc cells r c
        find_loop nr nc fuel s.1 s.2.1 s.2.2 er ec

/-- The path-marking do-while loop of maze_find_path (lines 503-519),
with fuel: mark the current cell visited, move in the direction of its
marker, and repeat until the position equals the goal, which is then
also marked.  Note the loop body runs before the first goal test. -/
def mark_loop (nr nc : ℕ) :
    ℕ → List maze_node → ℕ → ℕ → ℕ → ℕ → Option (List maze_node)
  | 0, _, _, _, _, _ => none
  | fuel + 1, cells, r, c, er, ec =>
      let cells1 := setVisit cells (r * nc + c)
      let rc := step_move r c (getCell cells1 (r * nc + c)).marker
      if rc.1 = er ∧ rc.2 = ec then some (setVisit cells1 (rc.1 * nc + rc.2))
      else mark_loop nr nc fuel cells1 rc.1 rc.2 er ec

/-- Embeds maze_find_path (maze.c lines 442-520): unmark the grid, run
the forward search from the start cell, then re-initialize the position
to the start (lines 503-504) and walk the marker chain from there,
marking the path.  `none` means the fuel ran out before the
corresponding C loop exited. -/
def maze_find_path (fuel : ℕ) (mp : maze_t) (sr sc er ec : ℕ) : Option maze_t :=
  let cells0 := maze_unmark_cells mp.n_rows mp.n_cols mp.cells
  match find_loop mp.n_rows mp.n_cols fuel cells0 sr sc er ec with
  | none => none
  | some s =>
      match mark_loop mp.n_rows mp.n_cols fuel s.1 sr sc er ec with
      | none => none
      | some cells2 => some { mp with cells := cells2 }

/-! Basic facts about cell reads and writes. -/

theorem getCell_set_self (cells : List maze_node) (off : ℕ) (v : maze_node)
    (h : off < cells.length) : getCell (cells.set off v) off = v := by
  simp [getCell, List.getD_eq_getElem?_getD, List.getElem?_set_self h]

theorem getCell_set_ne (cells : List maze_node) (off i : ℕ) (v : maze_node)
    (h : off ≠ i) : getCell (cells.set off v) i = getCell cells i := by
  simp [getCell, List.getD_eq_getElem?_getD, List.getElem?_set_ne h]

theorem getCell_default (cells : List maze_node) (i : ℕ) (h : cells.length ≤ i) :
    getCell cells i = def_node := by
  unfold getCell
  exact List.getD_eq_default _ _ h

/-- All cells (in range or not) carry an up marker; the out-of-range
default cell does, so this only constrains the list entries. -/
def markersU (cells : List maze_node) : Prop :=
  ∀ i, (getCell cells i).marker = Dir.U

theorem markersU_of_mem (cells : List maze_node)
    (h : ∀ x ∈ cells, x.marker = Dir.U) : markersU cells := by
  intro i
  rcases Nat.lt_or_ge i cells.length with hi | hi
  · rw [getCell, List.getD_eq_getElem _ _ hi]
    exact h _ (List.getElem_mem hi)
  · rw [getCell_default _ _ hi]; rfl

theorem markersU_setVisit (cells : List maze_node) (off : ℕ)
    (h : markersU cells) : markersU (setVisit cells off) := by
  intro i
  unfold setVisit
  rcases Nat.lt_or_ge off cells.length with hoff | hoff
  · rcases eq_or_ne off i with rfl | hne
    · rw [getCell_set_self _ _ _ hoff]; exact h off
    · rw [getCell_set_ne _ _ _ _ hne]; exact h i
  · rw [List.set_eq_of_length_le hoff]; exact h i

/-! Arithmetic of the unsigned decrement. -/

theorem dec32_zero : dec32 0 = W32 - 1 := by
  unfold dec32
  exact Nat.mod_eq_of_lt (by unfold W32; omega)

theorem dec32_of_pos (r : ℕ) (h1 : 1 ≤ r) (h2 : r < W32) : dec32 r = r - 1 := by
  unfold dec32
  have he : r + (W32 - 1) = (r - 1) + 1 * W32 := by unfold W32 at *; omega
  rw [he, Nat.add_mul_mod_self_right]
  exact Nat.mod_eq_of_lt (by unfold W32 at *; omega)

/-- The marker-walking loop never terminates early while every marker
points up: it just keeps decrementing the row, so with the goal row
strictly below the current row it needs at least `r - er` steps of
fuel. -/
theorem mark_loop_countdown (nr nc er c : ℕ) :
    ∀ (f r : ℕ) (cells : List maze_node), markersU cells →
      er < r → r < W32 → f < r - er →
      mark_loop nr nc f cells r c er c = none := by
  intro f
  induction f with
  | zero => intro r cells _ _ _ _; rfl
  | succ f ih =>
      intro r cells hm her hr hf
      have hmk : (getCell (setVisit cells (r * nc + c)) (r * nc + c)).marker
          = Dir.U := markersU_setVisit cells _ hm _
      have hdec : dec32 r = r - 1 := dec32_of_pos r (by omega) hr
      simp only [mark_loop, hmk, step_move, hdec]
      rw [if_neg (by omega)]
      exact ih (r - 1) _ (markersU_setVisit cells _ hm) (by omega) (by omega)
        (by omega)

/-- Shared shape of the start-equals-goal divergence: solving from the
origin to the origin first marks the origin, then steps up off the
grid (row wraps to 2^32 - 1) and the marking loop counts the row all
the way back down, so any fuel below 2^32 runs out. -/
theorem find_path_self_origin_none (mp : maze_t)
    (hm : markersU (maze_unmark_cells mp.n_rows mp.n_cols mp.cells)) :
    ∀ f : ℕ, f < W32 → maze_find_path f mp 0 0 0 0 = none := by
  intro f hf
  match f with
  | 0 => rfl
  | (f + 1) =>
      have hfind : find_loop mp.n_rows mp.n_cols (f + 1)
          (maze_unmark_cells mp.n_rows mp.n_cols mp.cells) 0 0 0 0
          = some (maze_unmark_cells mp.n_rows mp.n_cols mp.cells, 0, 0) := by
        simp [find_loop]
      have hmk : (getCell
          (setVisit (maze_unmark_cells mp.n_rows mp.n_cols mp.cells) 0) 0).marker
          = Dir.U := markersU_setVisit _ _ hm _
      have hne : ¬(W32 - 1 = 0) := by unfold W32; omega
      have hmark : mark_loop mp.n_rows mp.n_cols (f + 1)
          (maze_unmark_cells mp.n_rows mp.n_cols mp.cells) 0 0 0 0
          = mark_loop mp.n_rows mp.n_cols f
              (setVisit (maze_unmark_cells mp.n_rows mp.n_cols mp.cells) 0)
              (W32 - 1) 0 0 0 := by
        simp only [mark_loop, Nat.zero_mul, Nat.add_zero, Nat.zero_add, hmk,
          step_move, dec32_zero, eq_self_iff_true, and_true]
        rw [if_neg hne]
      have hcnt : mark_loop mp.n_rows mp.n_cols f
          (setVisit (maze_unmark_cells mp.n_rows mp.n_cols mp.cells) 0)
          (W32 - 1) 0 0 0 = none :=
        mark_loop_countdown _ _ 0 0 f (W32 - 1) _ (markersU_setVisit _ _ hm)
          (by unfold W32; omega) (by unfold W32; omega)
          (by unfold W32 at hf ⊢; omega)
      simp only [maze_find_path, hfind, hmark, hcnt]

/-- A 2x2 perfect maze (a spanning tree): the walls between
(0,0)-(0,1), (0,0)-(1,0) and (0,1)-(1,1) are open, so there are
3 = 4 - 1 open internal walls and every cell is reachable from every
other through exactly one simple path. -/
def c2_maze : maze_t :=
  { n_rows := 2, n_cols := 2,
    cells := [{ def_node with r_wall := false, b_wall := false },
              { def_node with b_wall := false }, def_node, def_node],
    exit_1 := { epos := 0, edir := Dir.L },
    exit_2 := { epos := 1, edir := Dir.R } }

/-- Claim C2: the claim quantifies over every pair of in-range cells,
including start = goal, and asserts maze_find_path terminates marking
the tree path.  On the fully connected 2x2 maze `c2_maze` with
start = goal = (0,0) the code does not: the marking do-while moves
before its first goal test (marker Up), the unsigned row wraps to
2^32 - 1, and the loop must count the row all the way back down, so
the run needs at least 2^32 iterations and walks far outside the grid
(out-of-bounds accesses in C).  Hence the solver, run at any fuel
below 2^32, is still looping. -/
theorem maze_find_path_self_goal_diverges_on_connected_grid :
    ∀ f : ℕ, f < W32 → maze_find_path f c2_maze 0 0 0 0 = none :=
  find_path_self_origin_none c2_maze (markersU_of_mem _ (by decide))

/-- Witness for C2's theorem at fuel 5. -/
theorem maze_find_path_self_goal_diverges_on_connected_grid_witness :
    5 < W32 ∧ maze_find_path 5 c2_maze 0 0 0 0 = none :=
  ⟨by norm_num [W32],
   maze_find_path_self_goal_diverges_on_connected_grid 5 (by norm_num [W32])⟩

/-- The 2x2 all-walls grid (the state maze_init and maze_reset
produce). -/
def c4_maze : maze_t :=
  { n_rows := 2, n_cols := 2,
    cells := List.replicate 4 def_node,
    exit_1 := { epos := 0, edir := Dir.L },
    exit_2 := { epos := 1, edir := Dir.R } }

/-- Claim C4: calling maze_find_path with start = goal = (0,0) on the
2x2 all-walls grid should terminate at once marking only that cell;
instead the marking do-while executes its body before the first goal
test, steps up out of the grid (row wraps to 2^32 - 1) and needs at
least 2^32 iterations to come back, accessing out-of-range cells in C.
At any fuel below 2^32 the loop is still running. -/
theorem maze_find_path_self_goal_diverges :
    ∀ f : ℕ, f < W32 → maze_find_path f c4_maze 0 0 0 0 = none :=
  find_path_self_origin_none c4_maze (markersU_of_mem _ (by decide))

/-- Witness for C4's theorem at fuel 6. -/
theorem maze_find_path_self_goal_diverges_witness :
    6 < W32 ∧ maze_find_path 6 c4_maze 0 0 0 0 = none :=
  ⟨by norm_num [W32], maze_find_path_self_goal_diverges 6 (by norm_num [W32])⟩

/-- A 1x1 grid whose single cell has no right wall (maze_load can
produce any wall combination, and the renderers clear the boundary
wall of a right-facing exit cell in place). -/
def c7_cells : List maze_node :=
  [{ def_node with r_wall := false }]

/-- Claim C7: the claim says s_can_move returns false for every
direction whose destination lies outside the grid; but for DIR_R the
code tests `c < n_cols` instead of `c < n_cols - 1`, so from the last
column with the boundary r_wall absent it returns true, although the
destination column equals n_cols (out of range).  This contradicts the
function's own comment ("magic unbreakable walls around the entire
maze"). -/
theorem s_can_move_right_off_grid :
    s_can_move 1 1 c7_cells 0 0 Dir.R = true := by decide

/-- Claim C10: a successful maze_init sets exit_1 to the Left boundary
side at offset 0 and exit_2 to the Right boundary side at offset
nr - 1; decoded by the SOLN_DEFAULT switch of mazegen.c these denote
the top-left cell (0,0) and the bottom-right cell (nr-1, nc-1). -/
theorem maze_init_default_exits (nr nc : ℕ) (h1 : 1 ≤ nr) (h2 : 1 ≤ nc) :
    (maze_init nr nc true).map
      (fun mp => (mp.exit_1, mp.exit_2, soln_cell mp mp.exit_1, soln_cell mp mp.exit_2))
    = some (⟨0, Dir.L⟩, ⟨nr - 1, Dir.R⟩, (0, 0), (nr - 1, nc - 1)) := rfl

/-- Witness for C10's theorem at a 3x4 maze. -/
theorem maze_init_default_exits_witness :
    1 ≤ 3 ∧ 1 ≤ 4 ∧
    (maze_init 3 4 true).map
      (fun mp => (mp.exit_1, mp.exit_2, soln_cell mp mp.exit_1, soln_cell mp mp.exit_2))
    = some (⟨0, Dir.L⟩, ⟨2, Dir.R⟩, (0, 0), (2, 3)) :=
  ⟨by norm_num, by norm_num, maze_init_default_exits 3 4 (by norm_num) (by norm_num)⟩

/-! Wall preservation by the solver. -/

/-- Two cell arrays of the same length whose corresponding entries
carry the same wall bits (markers and visited bits are free). -/
def wallsEq (a b : List maze_node) : Prop :=
  a.length = b.length ∧
  ∀ i, i < a.length →
    (getCell a i).r_wall = (getCell b i).r_wall ∧
    (getCell a i).b_wall = (getCell b i).b_wall

theorem wallsEq_refl (a : List maze_node) : wallsEq a a :=
  ⟨rfl, fun _ _ => ⟨rfl, rfl⟩⟩

theorem wallsEq_trans (a b c : List maze_node) (h1 : wallsEq a b)
    (h2 : wallsEq b c) : wallsEq a c := by
  refine ⟨h1.1.trans h2.1, fun i hi => ?_⟩
  have hlen := h1.1
  have k1 := h1.2 i hi
  have k2 := h2.2 i (by omega)
  exact ⟨k1.1.trans k2.1, k1.2.trans k2.2⟩

/-- Setting a cell to a value with the same wall bits as the old cell
leaves the wall content unchanged. -/
theorem wallsEq_set (cells : List maze_node) (off : ℕ) (v : maze_node)
    (hr : v.r_wall = (getCell cells off).r_wall)
    (hb : v.b_wall = (getCell cells off).b_wall) :
    wallsEq (cells.set off v) cells := by
  refine ⟨List.length_set cells off v, fun i hi => ?_⟩
  rcases Nat.lt_or_ge off cells.length with hoff | hoff
  · rcases eq_or_ne off i with rfl | hne
    · rw [getCell_set_self _ _ _ hoff]; exact ⟨hr, hb⟩
    · rw [getCell_set_ne _ _ _ _ hne]; exact ⟨rfl, rfl⟩
  · rw [List.set_eq_of_length_le hoff]; exact ⟨rfl, rfl⟩

theorem wallsEq_setMarker (cells : List maze_node) (off : ℕ) (d : Dir) :
    wallsEq (setMarker cells off d) cells :=
  wallsEq_set cells off _ rfl rfl

theorem wallsEq_setVisit (cells : List maze_node) (off : ℕ) :
    wallsEq (setVisit cells off) cells :=
  wallsEq_set cells off _ rfl rfl

theorem wallsEq_forward_step (nr nc : ℕ) (cells : List maze_node) (r c : ℕ) :
    wallsEq (forward_step nr nc cells r c).1 cells := by
  simp only [forward_step]
  cases htd : try_dirs nr nc cells r c 4 ((getCell cells (r * nc + c)).marker) with
  | some d =>
      simp only [htd]
      exact wallsEq_trans _ _ _ (wallsEq_setMarker _ _ _) (wallsEq_setMarker _ _ _)
  | none =>
      simp only [htd]
      exact wallsEq_setMarker _ _ _

theorem wallsEq_find_loop (nr nc : ℕ) :
    ∀ (fuel : ℕ) (cells : List maze_node) (r c er ec : ℕ)
      (s : List maze_node × ℕ × ℕ),
      find_loop nr nc fuel cells r c er ec = some s → wallsEq s.1 cells := by
  intro fuel
  induction fuel with
  | zero =>
      intro cells r c er ec s h
      exact absurd h (by simp [find_loop])
  | succ fuel ih =>
      intro cells r c er ec s h
      rw [find_loop] at h
      by_cases hx : r = er ∧ c = ec
      · rw [if_pos hx] at h
        cases h
        exact wallsEq_refl _
      · rw [if_neg hx] at h
        exact wallsEq_trans _ _ _ (ih _ _ _ _ _ _ h) (wallsEq_forward_step nr nc cells r c)

theorem wallsEq_mark_loop (nr nc : ℕ) :
    ∀ (fuel : ℕ) (cells : List maze_node) (r c er ec : ℕ)
      (out : List maze_node),
      mark_loop nr nc fuel cells r c er ec = some out → wallsEq out cells := by
  intro fuel
  induction fuel with
  | zero =>
      intro cells r c er ec out h
      exact absurd h (by simp [mark_loop])
  | succ fuel ih =>
      intro cells r c er ec out h
      rw [mark_loop] at h
      by_cases hx : (step_move r c
          (getCell (setVisit cells (r * nc + c)) (r * nc + c)).marker).1 = er ∧
          (step_move r c
            (getCell (setVisit cells (r * nc + c)) (r * nc + c)).marker).2 = ec
      · rw [if_pos hx] at h
        cases h
        exact wallsEq_trans _ _ _ (wallsEq_setVisit _ _) (wallsEq_setVisit _ _)
      · rw [if_neg hx] at h
        exact wallsEq_trans _ _ _ (ih _ _ _ _ _ _ h) (wallsEq_setVisit _ _)

/-- Reading through mapIdx. -/
theorem getCell_mapIdx (f : ℕ → maze_node → maze_node) (cells : List maze_node)
    (i : ℕ) :
    getCell (cells.mapIdx f) i =
      if i < cells.length then f i (getCell cells i) else def_node := by
  unfold getCell
  rw [List.getD_eq_getElem?_getD, List.getElem?_mapIdx]
  by_cases hi : i < cells.length
  · rw [if_pos hi, List.getElem?_eq_getElem hi, List.getD_eq_getElem _ _ hi]
    rfl
  · rw [if_neg hi, List.getElem?_eq_none (by omega)]
    rfl

theorem wallsEq_unmark (nr nc : ℕ) (cells : List maze_node) :
    wallsEq (maze_unmark_cells nr nc cells) cells := by
  unfold maze_unmark_cells
  refine ⟨List.length_mapIdx, fun i hi => ?_⟩
  have hi' : i < cells.length := by
    have := @List.length_mapIdx _ _
      (fun i cell => if i < nr * nc then { cell with marker := Dir.U, visit := false } else cell)
      cells
    omega
  rw [getCell_mapIdx, if_pos hi']
  by_cases h : i < nr * nc
  · rw [if_pos h]; exact ⟨rfl, rfl⟩
  · rw [if_neg h]; exact ⟨rfl, rfl⟩

/-- maze_unmark resets exactly the in-range marker and visited fields. -/
theorem unmark_resets (nr nc : ℕ) (cells : List maze_node) (i : ℕ)
    (hi : i < nr * nc) :
    (getCell (maze_unmark_cells nr nc cells) i).marker = Dir.U ∧
    (getCell (maze_unmark_cells nr nc cells) i).visit = false := by
  unfold maze_unmark_cells
  rw [getCell_mapIdx]
  by_cases h : i < cells.length
  · rw [if_pos h, if_pos hi]
    exact ⟨rfl, rfl⟩
  · rw [if_neg h]
    exact ⟨rfl, rfl⟩

/-- Two cells with equal fields are equal. -/
theorem maze_node_eq_of (x y : maze_node) (h1 : x.r_wall = y.r_wall)
    (h2 : x.b_wall = y.b_wall) (h3 : x.marker = y.marker)
    (h4 : x.visit = y.visit) : x = y := by
  cases x
  cases y
  simp_all

/-- Unmarking normalizes away in-range marker/visited differences:
two full-size cell arrays with the same walls unmark to the same
array. -/
theorem maze_unmark_cells_eq (nr nc : ℕ) (a b : List maze_node)
    (ha : a.length = nr * nc) (hb : b.length = nr * nc) (hw : wallsEq a b) :
    maze_unmark_cells nr nc a = maze_unmark_cells nr nc b := by
  unfold maze_unmark_cells
  apply List.ext_getElem (by simp [List.length_mapIdx, ha, hb])
  intro j h1 h2
  have hja : j < a.length := by
    have := @List.length_mapIdx _ _
      (fun i cell =>
        if i < nr * nc then { cell with marker := Dir.U, visit := false } else cell) a
    omega
  have hjb : j < b.length := by omega
  have hj : j < nr * nc := by omega
  have hwj := hw.2 j hja
  rw [getCell, getCell, List.getD_eq_getElem a def_node hja,
      List.getD_eq_getElem b def_node hjb] at hwj
  rw [List.getElem_mapIdx, List.getElem_mapIdx]
  rw [if_pos hj, if_pos hj]
  exact maze_node_eq_of _ _ hwj.1 hwj.2 rfl rfl

/-- Claim C5: (i) maze_find_path never changes any cell's wall bits
(and preserves the dimensions); (ii) before searching it resets every
in-range cell's marker to Up and visited to false (the first thing it
does is maze_unmark); (iii) consequently the solver's result depends
only on the dimensions and the wall bits, not on the marker/visited
state a previous solve left behind: two same-size grids with equal
walls produce equal cell arrays (and succeed or run out of fuel
together). -/
theorem maze_find_path_frame :
    (∀ (fuel : ℕ) (mp : maze_t) (sr sc er ec : ℕ) (mp' : maze_t),
        maze_find_path fuel mp sr sc er ec = some mp' →
        mp'.n_rows = mp.n_rows ∧ mp'.n_cols = mp.n_cols ∧
        wallsEq mp'.cells mp.cells) ∧
    (∀ (nr nc : ℕ) (cells : List maze_node) (i : ℕ), i < nr * nc →
        (getCell (maze_unmark_cells nr nc cells) i).marker = Dir.U ∧
        (getCell (maze_unmark_cells nr nc cells) i).visit = false) ∧
    (∀ (fuel : ℕ) (mp1 mp2 : maze_t) (sr sc er ec : ℕ),
        mp1.n_rows = mp2.n_rows → mp1.n_cols = mp2.n_cols →
        mp1.cells.length = mp1.n_rows * mp1.n_cols →
        mp2.cells.length = mp2.n_rows * mp2.n_cols →
        wallsEq mp1.cells mp2.cells →
        (maze_find_path fuel mp1 sr sc er ec).map maze_t.cells
          = (maze_find_path fuel mp2 sr sc er ec).map maze_t.cells) := by
  refine ⟨?_, unmark_resets, ?_⟩
  · intro fuel mp sr sc er ec mp' h
    simp only [maze_find_path] at h
    cases hf : find_loop mp.n_rows mp.n_cols fuel
        (maze_unmark_cells mp.n_rows mp.n_cols mp.cells) sr sc er ec with
    | none => rw [hf] at h; cases h
    | some s =>
        rw [hf] at h
        dsimp only at h
        cases hm : mark_loop mp.n_rows mp.n_cols fuel s.1 sr sc er ec with
        | none => rw [hm] at h; cases h
        | some cells2 =>
            rw [hm] at h
            cases h
            refine ⟨rfl, rfl, ?_⟩
            exact wallsEq_trans _ _ _
              (wallsEq_trans _ _ _ (wallsEq_mark_loop _ _ _ _ _ _ _ _ _ hm)
                (wallsEq_find_loop _ _ _ _ _ _ _ _ _ hf))
              (wallsEq_unmark _ _ _)
  · intro fuel mp1 mp2 sr sc er ec hr hc hl1 hl2 hw
    simp only [maze_find_path]
    rw [hr, hc]
    rw [maze_unmark_cells_eq mp2.n_rows mp2.n_cols mp1.cells mp2.cells
      (by rw [← hr, ← hc]; exact hl1) hl2 hw]
    cases hF : find_loop mp2.n_rows mp2.n_cols fuel
        (maze_unmark_cells mp2.n_rows mp2.n_cols mp2.cells) sr sc er ec with
    | none => rfl
    | some s =>
        dsimp only
        cases hM : mark_loop mp2.n_rows mp2.n_cols fuel s.1 sr sc er ec with
        | none => rfl
        | some cells2 => rfl

/-- Witness for C5's theorem: a 1x2 maze with the wall between its two
cells open, in a dirty state left by a previous solve (both cells
visited, markers pointing right/left), solves from (0,0) to (0,1)
exactly as the clean all-up unvisited grid does. -/
theorem maze_find_path_frame_witness :
    (maze_find_path 5
        { n_rows := 1, n_cols := 2,
          cells := [{ r_wall := false, b_wall := true, marker := Dir.R, visit := true },
                    { r_wall := true, b_wall := true, marker := Dir.L, visit := true }],
          exit_1 := ⟨0, Dir.L⟩, exit_2 := ⟨0, Dir.R⟩ } 0 0 0 1).map maze_t.cells
      = (maze_find_path 5
        { n_rows := 1, n_cols := 2,
          cells := [{ def_node with r_wall := false }, def_node],
          exit_1 := ⟨0, Dir.L⟩, exit_2 := ⟨0, Dir.R⟩ } 0 0 0 1).map maze_t.cells :=
  maze_find_path_frame.2.2 5 _ _ 0 0 0 1 rfl rfl rfl rfl
    (by refine ⟨rfl, ?_⟩; decide)

/-! The maze generator (maze.c lines 326-426) and its union-find
helpers (lines 71-130).  The recursive s_findset is embedded with
fuel; maze_generate passes `n_rows * n_cols` of it, which suffices as
long as the parent array is an acyclic forest. -/

/-- Embeds s_findset (maze.c lines 77-86): find the root of `pos`,
rewriting the parent of every node on the way (path compression), and
return the updated array together with the root. -/
def s_findset : ℕ → (ℕ → ℕ) → ℕ → ((ℕ → ℕ) × ℕ)
  | 0, f, pos => (f, pos)
  | fuel + 1, f, pos =>
      if f pos = pos then (f, pos)
      else
        let rec1 := s_findset fuel f (f pos)
        (Function.update rec1.1 pos rec1.2, rec1.2)

/-- Embeds s_union (maze.c lines 95-101): find both roots (the second
find runs on the array compressed by the first) and point the first
root at the second. -/
def s_union (fuel : ℕ) (f : ℕ → ℕ) (pos1 pos2 : ℕ) : ℕ → ℕ :=
  let a := s_findset fuel f pos1
  let b := s_findset fuel a.1 pos2
  Function.update b.1 a.2 b.2

/-- Embeds s_adj (maze.c lines 112-130): which of the four neighbors
of `pos` are in a different path set.  The checks run in the source's
textual order U, D, L, R, each calling the compressing find; the
result mask is returned in bit order (U, R, D, L) as the C bit vector
is read.  Note the range checks here are the correct ones
(`c < n_cols - 1` for R). -/
def s_adj (nr nc fuel : ℕ) (f : ℕ → ℕ) (pos : ℕ) :
    (ℕ → ℕ) × (Bool × Bool × Bool × Bool) :=
  let s0 := s_findset fuel f pos
  let r := pos / nc
  let c := pos % nc
  let stU := if 0 < r then
      let t := s_findset fuel s0.1 ((r - 1) * nc + c)
      (t.1, decide (t.2 ≠ s0.2))
    else (s0.1, false)
  let stD := if r < nr - 1 then
      let t := s_findset fuel stU.1 ((r + 1) * nc + c)
      (t.1, decide (t.2 ≠ s0.2))
    else (stU.1, false)
  let stL := if 0 < c then
      let t := s_findset fuel stD.1 (r * nc + (c - 1))
      (t.1, decide (t.2 ≠ s0.2))
    else (stD.1, false)
  let stR := if c < nc - 1 then
      let t := s_findset fuel stL.1 (r * nc + (c + 1))
      (t.1, decide (t.2 ≠ s0.2))
    else (stL.1, false)
  (stR.1, (stU.2, stR.2, stD.2, stL.2))

/-- The set directions of an adjacency mask (u, r, d, l), listed in
the bit order 0..3 the wall-picking loop of maze_generate scans; its
length is `adj_pop` of the mask (the population count table of
maze.c lines 38-41). -/
def adj_dirs (m : Bool × Bool × Bool × Bool) : List Dir :=
  (if m.1 then [Dir.U] else []) ++ (if m.2.1 then [Dir.R] else []) ++
    (if m.2.2.1 then [Dir.D] else []) ++ (if m.2.2.2 then [Dir.L] else [])

/-- The wall-knocking switch of maze_generate (lines 402-414): clear
the wall between `(r, c)` and its neighbor in direction `wall`, and
return the new cell array together with the neighbor's coordinates
(the coordinates the C leaves in r, c for the union call). -/
def knock_wall (nc : ℕ) (cells : List maze_node) (r c : ℕ) (wall : Dir) :
    List maze_node × ℕ × ℕ :=
  match wall with
  | .U =>
      let off := (r - 1) * nc + c
      (cells.set off { getCell cells off with b_wall := false }, r - 1, c)
  | .R =>
      let off := r * nc + c
      (cells.set off { getCell cells off with r_wall := false }, r, c + 1)
  | .D =>
      let off := r * nc + c
      (cells.set off { getCell cells off with b_wall := false }, r + 1, c)
  | .L =>
      let off := r * nc + (c - 1)
      (cells.set off { getCell cells off with r_wall := false }, r, c - 1)

/-- The C cast `(rowcol_t)(v * m)` applied to a random value
`v = num/den` and a count m: truncation toward zero of the product,
which for the nonnegative values involved is its floor, computed here
on the numerator and denominator so that it evaluates by kernel
reduction.  `castTrunc_eq_floor` proves it equal to
`Int.toNat ⌊v * m⌋` for every rational v. -/
def castTrunc (v : ℚ) (m : ℕ) : ℕ :=
  ((v.num * (m : ℤ)) / (v.den : ℤ)).toNat

theorem castTrunc_eq_floor (v : ℚ) (m : ℕ) :
    castTrunc v m = Int.toNat ⌊v * (m : ℚ)⌋ := by
  unfold castTrunc
  have hden : ((v.den : ℕ) : ℚ) ≠ 0 := Nat.cast_ne_zero.mpr v.den_nz
  have hnum : (v.num : ℚ) = v * (v.den : ℚ) := by
    field_simp [Rat.num_div_den]
  have hv : v * (m : ℚ) = ((v.num * (m : ℤ) : ℤ) : ℚ) / ((v.den : ℕ) : ℚ) := by
    rw [eq_div_iff hden]
    push_cast
    rw [hnum]
    ring
  rw [hv, Rat.floor_intCast_div_natCast]

/-- The generator's working state: the cell array, the disjoint-set
array, the queue, the settled counter and the index of the next
random value to consume. -/
structure GenState where
  cells : List maze_node
  sets : ℕ → ℕ
  queue : List ℕ
  count : ℕ
  k : ℕ

/-- One body of the queue-scanning loop of maze_generate (lines
376-418) for the queue entry `cur`: compute the adjacency mask (the
finds compress the set array); if no neighbor is foreign, bump the
settled counter; otherwise pick the `skip`-th set direction — where
`skip = (rowcol_t)(random() * apop)` and a random value is consumed
only when `apop > 1` — knock the wall down and union the two cells. -/
def scan_cell (nr nc : ℕ) (stream : ℕ → ℚ) (st : GenState) (cur : ℕ) : GenState :=
  let n := nr * nc
  let a := s_adj nr nc n st.sets cur
  let adjL := adj_dirs a.2
  if adjL.length = 0 then
    { st with sets := a.1, count := st.count + 1 }
  else
    let pick : ℕ × ℕ :=
      if 1 < adjL.length then (castTrunc (stream st.k) adjL.length, st.k + 1)
      else (0, st.k)
    let wall := adjL.getD pick.1 Dir.U
    let kn := knock_wall nc st.cells (cur / nc) (cur % nc) wall
    { cells := kn.1,
      sets := s_union n a.1 (kn.2.1 * nc + kn.2.2) cur,
      queue := st.queue, count := st.count, k := pick.2 }

/-- The exchange `t = queue[pos]; queue[pos] = queue[exch];
queue[exch] = t` of the reshuffle loop. -/
def swapL (q : List ℕ) (i j : ℕ) : List ℕ :=
  (q.set i (q.getD j 0)).set j (q.getD i 0)

/-- The reshuffle loop of maze_generate (lines 366-373), iterating
`pos` from its initial value down to 1: each step consumes one random
value v and swaps entry `pos` with entry `(rowcol_t)(v * (pos + 1))`
(a C cast, i.e. truncation toward zero).  Returns the new queue and
the next random index. -/
def shuffle_aux (stream : ℕ → ℚ) : ℕ → ℕ → List ℕ → List ℕ × ℕ
  | 0, k, q => (q, k)
  | pos + 1, k, q =>
      let v := stream k
      let exch := castTrunc v (pos + 2)
      shuffle_aux stream pos (k + 1) (swapL q (pos + 1) exch)

/-- One round of the while loop of maze_generate: reshuffle the queue
(from `pos = n_cells - 1` down to 1), then scan it once. -/
def gen_round (nr nc : ℕ) (stream : ℕ → ℚ) (st : GenState) : GenState :=
  let sh := shuffle_aux stream (nr * nc - 1) st.k st.queue
  let st1 := { st with queue := sh.1, k := sh.2 }
  st1.queue.foldl (scan_cell nr nc stream) st1

/-- The while loop `while (count < n_cells)` of maze_generate, with
fuel counting rounds. -/
def gen_loop (nr nc : ℕ) (stream : ℕ → ℚ) : ℕ → GenState → Option GenState
  | 0, st => if nr * nc ≤ st.count then some st else none
  | fuel + 1, st =>
      if nr * nc ≤ st.count then some st
      else gen_loop nr nc stream fuel (gen_round nr nc stream st)

/-- Embeds maze_generate (maze.c lines 331-426).  The two malloc
outcomes are the flags `sets_ok` and `queue_ok`; on either failure the
function returns 0 with the grid in the state maze_reset put it in
(the reset runs before the allocations).  On success the queue starts
as 0, 1, ..., n-1, every cell is its own set, and the grid receives
the wall bits the loop produced.  The result is `some (flag, grid)`,
or `none` if the round fuel ran out before the loop exited. -/
def maze_generate (fuel : ℕ) (mp : maze_t) (stream : ℕ → ℚ)
    (sets_ok queue_ok : Bool) : Option (Bool × maze_t) :=
  let n := mp.n_rows * mp.n_cols
  let mp0 := maze_reset mp
  if sets_ok = false then some (false, mp0)
  else if queue_ok = false then some (false, mp0)
  else
    match gen_loop mp.n_rows mp.n_cols stream fuel
        { cells := mp0.cells, sets := fun p => p, queue := List.range n,
          count := 0, k := 0 } with
    | none => none
    | some st => some (true, { mp0 with cells := st.cells })

/-- maze_reset puts every in-range cell into the all-walls default
state. -/
theorem reset_cells_def (nr nc : ℕ) (cells : List maze_node) (i : ℕ)
    (hi : i < nr * nc) :
    getCell (maze_reset_cells nr nc cells) i = def_node := by
  unfold maze_reset_cells
  rw [getCell_mapIdx]
  by_cases h : i < cells.length
  · rw [if_pos h, if_pos hi]
  · rw [if_neg h]

/-- Claim C3: when the allocation of the disjoint-set array or of the
working queue fails, maze_generate returns the failure result 0 and
the grid is exactly the maze_reset state: every in-range cell has both
walls present, marker up and visited off (the reset runs before either
allocation, and nothing else has touched the grid). -/
theorem maze_generate_alloc_failure_total :
    ∀ (fuel : ℕ) (mp : maze_t) (stream : ℕ → ℚ) (sets_ok queue_ok : Bool),
      sets_ok = false ∨ queue_ok = false →
      maze_generate fuel mp stream sets_ok queue_ok = some (false, maze_reset mp) ∧
      ∀ i, i < mp.n_rows * mp.n_cols →
        getCell (maze_reset mp).cells i = def_node := by
  intro fuel mp stream sets_ok queue_ok h
  constructor
  · rcases h with h | h
    · subst h
      rfl
    · subst h
      cases sets_ok with
      | false => rfl
      | true => rfl
  · intro i hi
    exact reset_cells_def mp.n_rows mp.n_cols mp.cells i hi

/-- Witness for C3's theorem: a 2x3 maze with some walls knocked out
and stale marks, failing the queue allocation. -/
theorem maze_generate_alloc_failure_total_witness :
    (false = false ∨ true = false) ∧
    (maze_generate 7
        { n_rows := 2, n_cols := 3,
          cells := List.replicate 6 { def_node with r_wall := false, visit := true },
          exit_1 := ⟨0, Dir.L⟩, exit_2 := ⟨1, Dir.R⟩ } (fun _ => 0) false true
      = some (false, maze_reset
        { n_rows := 2, n_cols := 3,
          cells := List.replicate 6 { def_node with r_wall := false, visit := true },
          exit_1 := ⟨0, Dir.L⟩, exit_2 := ⟨1, Dir.R⟩ })) ∧
    ∀ i, i < 2 * 3 →
      getCell (maze_reset
        { n_rows := 2, n_cols := 3,
          cells := List.replicate 6 { def_node with r_wall := false, visit := true },
          exit_1 := ⟨0, Dir.L⟩, exit_2 := ⟨1, Dir.R⟩ }).cells i = def_node := by
  refine ⟨Or.inl rfl, ?_⟩
  exact maze_generate_alloc_failure_total 7 _ (fun _ => 0) false true (Or.inl rfl)

/-! Marker/visited preservation by the generator. -/

/-- Two cell arrays of the same length whose corresponding entries
carry the same marker and visited fields (walls are free). -/
def marksEq (a b : List maze_node) : Prop :=
  a.length = b.length ∧
  ∀ i, i < a.length →
    (getCell a i).marker = (getCell b i).marker ∧
    (getCell a i).visit = (getCell b i).visit

theorem marksEq_refl (a : List maze_node) : marksEq a a :=
  ⟨rfl, fun _ _ => ⟨rfl, rfl⟩⟩

theorem marksEq_trans (a b c : List maze_node) (h1 : marksEq a b)
    (h2 : marksEq b c) : marksEq a c := by
  refine ⟨h1.1.trans h2.1, fun i hi => ?_⟩
  have hlen := h1.1
  have k1 := h1.2 i hi
  have k2 := h2.2 i (by omega)
  exact ⟨k1.1.trans k2.1, k1.2.trans k2.2⟩

theorem marksEq_set (cells : List maze_node) (off : ℕ) (v : maze_node)
    (hm : v.marker = (getCell cells off).marker)
    (hv : v.visit = (getCell cells off).visit) :
    marksEq (cells.set off v) cells := by
  refine ⟨List.length_set cells off v, fun i hi => ?_⟩
  rcases Nat.lt_or_ge off cells.length with hoff | hoff
  · rcases eq_or_ne off i with rfl | hne
    · rw [getCell_set_self _ _ _ hoff]; exact ⟨hm, hv⟩
    · rw [getCell_set_ne _ _ _ _ hne]; exact ⟨rfl, rfl⟩
  · rw [List.set_eq_of_length_le hoff]; exact ⟨rfl, rfl⟩

theorem marksEq_knock_wall (nc : ℕ) (cells : List maze_node) (r c : ℕ)
    (wall : Dir) : marksEq (knock_wall nc cells r c wall).1 cells := by
  cases wall with
  | U => exact marksEq_set _ _ _ rfl rfl
  | R => exact marksEq_set _ _ _ rfl rfl
  | D => exact marksEq_set _ _ _ rfl rfl
  | L => exact marksEq_set _ _ _ rfl rfl

theorem marksEq_scan_cell (nr nc : ℕ) (stream : ℕ → ℚ) (st : GenState)
    (cur : ℕ) : marksEq (scan_cell nr nc stream st cur).cells st.cells := by
  simp only [scan_cell]
  by_cases h : (adj_dirs (s_adj nr nc (nr * nc) st.sets cur).2).length = 0
  · rw [if_pos h]
    exact marksEq_refl _
  · rw [if_neg h]
    exact marksEq_knock_wall _ _ _ _ _

theorem marksEq_scan_fold (nr nc : ℕ) (stream : ℕ → ℚ) :
    ∀ (q : List ℕ) (st : GenState),
      marksEq ((q.foldl (scan_cell nr nc stream) st).cells) st.cells := by
  intro q
  induction q with
  | nil => intro st; exact marksEq_refl _
  | cons x q ih =>
      intro st
      exact marksEq_trans _ _ _ (ih (scan_cell nr nc stream st x))
        (marksEq_scan_cell nr nc stream st x)

theorem marksEq_gen_round (nr nc : ℕ) (stream : ℕ → ℚ) (st : GenState) :
    marksEq (gen_round nr nc stream st).cells st.cells := by
  simp only [gen_round]
  exact marksEq_scan_fold nr nc stream _ _

theorem marksEq_gen_loop (nr nc : ℕ) (stream : ℕ → ℚ) :
    ∀ (fuel : ℕ) (st st' : GenState),
      gen_loop nr nc stream fuel st = some st' →
      marksEq st'.cells st.cells := by
  intro fuel
  induction fuel with
  | zero =>
      intro st st' h
      rw [gen_loop] at h
      by_cases hc : nr * nc ≤ st.count
      · rw [if_pos hc] at h; cases h; exact marksEq_refl _
      · rw [if_neg hc] at h; cases h
  | succ fuel ih =>
      intro st st' h
      rw [gen_loop] at h
      by_cases hc : nr * nc ≤ st.count
      · rw [if_pos hc] at h; cases h; exact marksEq_refl _
      · rw [if_neg hc] at h
        exact marksEq_trans _ _ _ (ih _ _ h) (marksEq_gen_round nr nc stream st)

/-- Claim C6, amended: whatever maze_generate returns (success or
allocation failure), every in-range cell of the returned grid has
marker up and visited false — the initial maze_reset overwrites both
fields, and the generation loop then touches only wall bits.  (The
claim as stated, that marker/visited are preserved from the input
grid, is false: the reset clobbers them; see the counterexample.) -/
theorem maze_generate_marks_reset :
    ∀ (fuel : ℕ) (mp : maze_t) (stream : ℕ → ℚ) (sets_ok queue_ok : Bool)
      (out : Bool × maze_t),
      maze_generate fuel mp stream sets_ok queue_ok = some out →
      ∀ i, i < mp.n_rows * mp.n_cols →
        (getCell out.2.cells i).marker = Dir.U ∧
        (getCell out.2.cells i).visit = false := by
  intro fuel mp stream sets_ok queue_ok out h i hi
  have hreset : ∀ j, j < mp.n_rows * mp.n_cols →
      (getCell (maze_reset_cells mp.n_rows mp.n_cols mp.cells) j).marker = Dir.U ∧
      (getCell (maze_reset_cells mp.n_rows mp.n_cols mp.cells) j).visit = false := by
    intro j hj
    rw [reset_cells_def mp.n_rows mp.n_cols mp.cells j hj]
    exact ⟨rfl, rfl⟩
  simp only [maze_generate] at h
  by_cases hs : sets_ok = false
  · rw [if_pos hs] at h
    cases h
    exact hreset i hi
  · rw [if_neg hs] at h
    by_cases hq : queue_ok = false
    · rw [if_pos hq] at h
      cases h
      exact hreset i hi
    · rw [if_neg hq] at h
      cases hg : gen_loop mp.n_rows mp.n_cols stream fuel
          { cells := (maze_reset mp).cells, sets := fun p => p,
            queue := List.range (mp.n_rows * mp.n_cols), count := 0, k := 0 } with
      | none => rw [hg] at h; cases h
      | some st =>
          rw [hg] at h
          cases h
          have hmk := marksEq_gen_loop mp.n_rows mp.n_cols stream fuel _ st hg
          rcases Nat.lt_or_ge i st.cells.length with hlt | hge
          · have := hmk.2 i hlt
            have hr := hreset i hi
            exact ⟨this.1.trans hr.1, this.2.trans hr.2⟩
          · rw [getCell_default _ _ hge]
            exact ⟨rfl, rfl⟩

/-- The rational 0 as an explicit structure literal, so that the
kernel can evaluate arithmetic on it. -/
def qZero : ℚ := ⟨0, 1, by decide, by decide⟩

/-- The rational 1/2 as an explicit structure literal. -/
def qHalf : ℚ := ⟨1, 2, by decide, by decide⟩

/-- Witness for C6's amended theorem: a dirty 1x2 grid (stale marker
and visit), generated to success with the all-zero random source. -/
theorem maze_generate_marks_reset_witness :
    (maze_generate 6
        { n_rows := 1, n_cols := 2,
          cells := [{ def_node with marker := Dir.D, visit := true }, def_node],
          exit_1 := ⟨0, Dir.L⟩, exit_2 := ⟨0, Dir.R⟩ } (fun _ => qZero) true true).isSome = true ∧
    ∀ out, maze_generate 6
        { n_rows := 1, n_cols := 2,
          cells := [{ def_node with marker := Dir.D, visit := true }, def_node],
          exit_1 := ⟨0, Dir.L⟩, exit_2 := ⟨0, Dir.R⟩ } (fun _ => qZero) true true = some out →
      ∀ i, i < 1 * 2 →
        (getCell out.2.cells i).marker = Dir.U ∧
        (getCell out.2.cells i).visit = false := by
  constructor
  · decide
  · intro out h
    exact maze_generate_marks_reset 6 _ (fun _ => qZero) true true out h

/-- A 1x1 grid whose sole cell is marked visited. -/
def c6_maze : maze_t :=
  { n_rows := 1, n_cols := 1,
    cells := [{ def_node with visit := true }],
    exit_1 := ⟨0, Dir.L⟩, exit_2 := ⟨0, Dir.R⟩ }

/-- Counterexample to claim C6 as stated: maze_generate does not
leave every cell's marker and visited fields as they were before the
call.  On a 1x1 grid whose cell is visited, generation succeeds and
returns the cell unvisited (maze_reset cleared it). -/
theorem maze_generate_changes_visit :
    c6_maze.cells.map maze_node.visit = [true] ∧
    (maze_generate 1 c6_maze (fun _ => qZero) true true).map
      (fun out => out.2.cells.map maze_node.visit) = some [false] := by
  exact ⟨rfl, by decide⟩

/-! The reshuffle: floor versus rounding (claim C8). -/

/-- Modelled from the spec: rounding to the nearest integer (the
claim's `round(random()*(i+1))`), computed on the numerator and
denominator; `castRound_eq_round` proves it agrees with Mathlib's
`round`. -/
def castRound (v : ℚ) (m : ℕ) : ℕ :=
  ((2 * v.num * (m : ℤ) + (v.den : ℤ)) / (2 * (v.den : ℤ))).toNat

theorem castRound_eq_round (v : ℚ) (m : ℕ) :
    castRound v m = Int.toNat (round (v * (m : ℚ))) := by
  unfold castRound
  rw [round_eq]
  have hden : ((2 * v.den : ℕ) : ℚ) ≠ 0 := by
    simp [v.den_nz]
  have hnum : (v.num : ℚ) = v * (v.den : ℚ) := by
    field_simp [Rat.num_div_den]
  have hv : v * (m : ℚ) + 1 / 2
      = ((2 * v.num * (m : ℤ) + (v.den : ℤ) : ℤ) : ℚ) / ((2 * v.den : ℕ) : ℚ) := by
    rw [eq_div_iff hden]
    push_cast
    rw [hnum]
    ring
  rw [hv, Rat.floor_intCast_div_natCast]
  push_cast
  rfl

/-- Modelled from the spec: the reshuffle pass exactly as claim C8
words it, with rounding to nearest in place of the C truncating
cast. -/
def shuffle_round_aux (stream : ℕ → ℚ) : ℕ → ℕ → List ℕ → List ℕ × ℕ
  | 0, k, q => (q, k)
  | pos + 1, k, q =>
      let v := stream k
      let exch := castRound v (pos + 2)
      shuffle_round_aux stream pos (k + 1) (swapL q (pos + 1) exch)

/-- A random source in [0,1) whose first value is 1/2. -/
def c8_stream : ℕ → ℚ := fun k => if k = 0 then qHalf else qZero

/-- Counterexample to claim C8 as stated: with first random value 1/2
and a three-element working list, the code's truncating cast gives
exchange index 1 at i = 2 (floor of 3/2) where rounding gives 2, and
the resulting lists differ. -/
theorem shuffle_is_not_rounding :
    (shuffle_aux c8_stream 2 0 [0, 1, 2]).1
      ≠ (shuffle_round_aux c8_stream 2 0 [0, 1, 2]).1 := by decide

/-- Exchange indices stay in range under the truncating-cast
semantics. -/
theorem castTrunc_le (v : ℚ) (i : ℕ) (h0 : 0 ≤ v) (h1 : v < 1) :
    castTrunc v (i + 1) ≤ i := by
  rw [castTrunc_eq_floor]
  have hpos : (0 : ℚ) < ((i + 1 : ℕ) : ℚ) := by positivity
  have hlt : v * ((i + 1 : ℕ) : ℚ) < ((i + 1 : ℕ) : ℚ) := by
    calc v * ((i + 1 : ℕ) : ℚ) < 1 * ((i + 1 : ℕ) : ℚ) :=
          mul_lt_mul_of_pos_right h1 hpos
      _ = ((i + 1 : ℕ) : ℚ) := one_mul _
  have hfl : ⌊v * ((i + 1 : ℕ) : ℚ)⌋ < ((i + 1 : ℕ) : ℤ) := by
    rw [Int.floor_lt]
    push_cast
    push_cast at hlt
    exact hlt
  omega

theorem swapL_length (q : List ℕ) (i j : ℕ) : (swapL q i j).length = q.length := by
  simp [swapL]

theorem swapL_perm (q : List ℕ) (i j : ℕ) (hi : i < q.length)
    (hj : j < q.length) : (swapL q i j).Perm q := by
  unfold swapL
  rw [List.getD_eq_getElem q 0 hi, List.getD_eq_getElem q 0 hj]
  rw [List.perm_iff_count]
  intro x
  have hj2 : j < (q.set i q[j]).length := by simpa using hj
  rw [List.count_set _ _ _ _ hj2, List.count_set _ _ _ _ hi]
  have hcnt1 : (if q[i] = x then 1 else 0) ≤ List.count x q := by
    split
    · rename_i hqx
      have : x ∈ q := hqx ▸ List.getElem_mem hi
      have := List.count_pos_iff.mpr this
      omega
    · omega
  rcases eq_or_ne i j with rfl | hij
  · rw [List.getElem_set_self hj2]
    simp only [beq_iff_eq]
    by_cases h1 : q[i] = x
    · rw [if_pos h1] at *
      omega
    · rw [if_neg h1] at *
      omega
  · rw [List.getElem_set_ne hij hj2]
    simp only [beq_iff_eq]
    by_cases h1 : q[i] = x
    · by_cases h2 : q[j] = x
      · rw [if_pos h1, if_pos h2] at *
        omega
      · rw [if_pos h1, if_neg h2] at *
        omega
    · by_cases h2 : q[j] = x
      · rw [if_neg h1, if_pos h2] at *
        omega
      · rw [if_neg h1, if_neg h2] at *
        omega

/-- Claim C8, amended: each reshuffle step swaps element i with the
element at index `(rowcol_t)(random() * (i + 1))`, i.e. the floor
(truncation) of the product, not its rounding; for random values in
[0,1) that index always lies in [0, i], each step consumes exactly
one random value, and the reshuffled working list is a permutation of
the one before. -/
theorem shuffle_floor_semantics :
    (∀ (v : ℚ) (i : ℕ), 0 ≤ v → v < 1 →
        castTrunc v (i + 1) ≤ i ∧
        castTrunc v (i + 1) = Int.toNat ⌊v * ((i + 1 : ℕ) : ℚ)⌋) ∧
    (∀ (stream : ℕ → ℚ), (∀ j, 0 ≤ stream j ∧ stream j < 1) →
      ∀ (p k : ℕ) (q : List ℕ), p < q.length →
        (shuffle_aux stream p k q).1.Perm q ∧
        (shuffle_aux stream p k q).2 = k + p) := by
  refine ⟨fun v i h0 h1 => ⟨castTrunc_le v i h0 h1, castTrunc_eq_floor v (i + 1)⟩, ?_⟩
  intro stream hs p
  induction p with
  | zero =>
      intro k q _
      exact ⟨List.Perm.refl q, rfl⟩
  | succ p ih =>
      intro k q hp
      have hexch : castTrunc (stream k) (p + 2) ≤ p + 1 :=
        castTrunc_le (stream k) (p + 1) (hs k).1 (hs k).2
      have hlen : p < (swapL q (p + 1) (castTrunc (stream k) (p + 2))).length := by
        rw [swapL_length]; omega
      have hrec := ih (k + 1) _ hlen
      rw [shuffle_aux]
      refine ⟨hrec.1.trans ?_, by rw [hrec.2]; omega⟩
      exact swapL_perm q (p + 1) _ (by omega) (by omega)

/-- Witness for C8's amended theorem: a concrete stream in [0,1), the
three-element list, the full pass. -/
theorem shuffle_floor_semantics_witness :
    (0 ≤ qHalf ∧ qHalf < 1) ∧
    (∀ j, 0 ≤ c8_stream j ∧ c8_stream j < 1) ∧
    2 < [0, 1, 2].length ∧
    (castTrunc qHalf 2 ≤ 1 ∧
      castTrunc qHalf 2 = Int.toNat ⌊qHalf * ((1 + 1 : ℕ) : ℚ)⌋) ∧
    ((shuffle_aux c8_stream 2 0 [0, 1, 2]).1.Perm [0, 1, 2] ∧
      (shuffle_aux c8_stream 2 0 [0, 1, 2]).2 = 0 + 2) := by
  have hq : ∀ j, 0 ≤ c8_stream j ∧ c8_stream j < 1 := by
    intro j
    unfold c8_stream
    split
    · exact ⟨by decide, by decide⟩
    · exact ⟨by decide, by decide⟩
  refine ⟨⟨by decide, by decide⟩, hq, by norm_num, ?_, ?_⟩
  · exact shuffle_floor_semantics.1 qHalf 1 (by decide) (by decide)
  · exact shuffle_floor_semantics.2 c8_stream hq 2 0 [0, 1, 2] (by norm_num)

/-! Union-find theory (claim C9): the parent array as a function,
roots, path depths, and the acyclic-forest invariant. -/

/-- A position is a root of the parent array. -/
def isRoot (f : ℕ → ℕ) (p : ℕ) : Prop := f p = p

/-- Walk parent pointers to the first root, with fuel (the pure,
non-mutating notion of representative). -/
def rootAux : ℕ → (ℕ → ℕ) → ℕ → ℕ
  | 0, _, p => p
  | fuel + 1, f, p => if f p = p then p else rootAux fuel f (f p)

/-- Number of parent steps to the first root, with fuel. -/
def depthAux : ℕ → (ℕ → ℕ) → ℕ → ℕ
  | 0, _, _ => 0
  | fuel + 1, f, p => if f p = p then 0 else depthAux fuel f (f p) + 1

/-- The forest invariant: on the first n positions the parent array
stays in range and every chain of parents reaches a root within n
steps (in particular there are no cycles among non-roots). -/
def Forest (n : ℕ) (f : ℕ → ℕ) : Prop :=
  ∀ p, p < n → f p < n ∧ isRoot f (f^[n] p)

/-- Once a chain reaches a root it stays there. -/
theorem iterate_stable (f : ℕ → ℕ) (p k : ℕ) (h : isRoot f (f^[k] p)) :
    ∀ m, k ≤ m → f^[m] p = f^[k] p := by
  intro m hm
  obtain ⟨t, rfl⟩ := Nat.exists_eq_add_of_le hm
  induction t with
  | zero => rfl
  | succ t ih =>
      have : k + (t + 1) = (k + t) + 1 := by omega
      rw [this, Function.iterate_succ_apply', ih (by omega), h]

theorem isRoot_iterate_self (f : ℕ → ℕ) (p k : ℕ) (h : isRoot f p) :
    f^[k] p = p := by
  have := iterate_stable f p 0 (by simpa using h) k (by omega)
  simpa using this

/-- rootAux with enough fuel lands on the stable iterate. -/
theorem rootAux_eq (f : ℕ → ℕ) :
    ∀ (fuel : ℕ) (p : ℕ), isRoot f (f^[fuel] p) →
      rootAux fuel f p = f^[fuel] p := by
  intro fuel
  induction fuel with
  | zero => intro p _; rfl
  | succ fuel ih =>
      intro p h
      by_cases hp : f p = p
      · rw [rootAux, if_pos hp, isRoot_iterate_self f p _ hp]
      · rw [rootAux, if_neg hp, Function.iterate_succ_apply] at *
        exact ih (f p) h

theorem depthAux_le (f : ℕ → ℕ) :
    ∀ (fuel : ℕ) (p : ℕ), depthAux fuel f p ≤ fuel := by
  intro fuel
  induction fuel with
  | zero => intro p; exact Nat.le_refl 0
  | succ fuel ih =>
      intro p
      by_cases hp : f p = p
      · rw [depthAux, if_pos hp]; omega
      · rw [depthAux, if_neg hp]
        have := ih (f p)
        omega

/-- With enough fuel, the depth really reaches a root. -/
theorem depthAux_root (f : ℕ → ℕ) :
    ∀ (fuel : ℕ) (p : ℕ), isRoot f (f^[fuel] p) →
      isRoot f (f^[depthAux fuel f p] p) := by
  intro fuel
  induction fuel with
  | zero => intro p h; exact h
  | succ fuel ih =>
      intro p h
      by_cases hp : f p = p
      · rw [depthAux, if_pos hp]; exact hp
      · rw [depthAux, if_neg hp]
        rw [Function.iterate_succ_apply] at h
        have := ih (f p) h
        rw [Function.iterate_succ_apply]
        exact this

/-- No root occurs strictly before the depth. -/
theorem depthAux_min (f : ℕ → ℕ) :
    ∀ (fuel : ℕ) (p j : ℕ), j < depthAux fuel f p → ¬isRoot f (f^[j] p) := by
  intro fuel
  induction fuel with
  | zero => intro p j h; simp [depthAux] at h
  | succ fuel ih =>
      intro p j h
      by_cases hp : f p = p
      · rw [depthAux, if_pos hp] at h; omega
      · rw [depthAux, if_neg hp] at h
        match j with
        | 0 => simpa using hp
        | j + 1 =>
            rw [Function.iterate_succ_apply]
            exact ih (f p) j (by omega)

/-- Depth is unchanged by adding fuel, once the fuel is enough. -/
theorem depthAux_congr (f : ℕ → ℕ) :
    ∀ (fuel fuel' : ℕ) (p : ℕ), isRoot f (f^[fuel] p) → fuel ≤ fuel' →
      depthAux fuel' f p = depthAux fuel f p := by
  intro fuel
  induction fuel with
  | zero =>
      intro fuel' p h _
      have h0 : f p = p := by simpa [isRoot] using h
      cases fuel' with
      | zero => rfl
      | succ fuel' => simp [depthAux, h0]
  | succ fuel ih =>
      intro fuel' p h hle
      match fuel', hle with
      | fuel' + 1, hle =>
          by_cases hp : f p = p
          · rw [depthAux, if_pos hp, depthAux, if_pos hp]
          · rw [depthAux, if_neg hp, depthAux, if_neg hp]
            rw [Function.iterate_succ_apply] at h
            rw [ih fuel' (f p) h (by omega)]

/-- The chain below the first root has no repetitions. -/
theorem path_distinct (f : ℕ → ℕ) (fuel : ℕ) (p : ℕ)
    (h : isRoot f (f^[fuel] p)) :
    ∀ i j, i < j → j ≤ depthAux fuel f p → f^[i] p ≠ f^[j] p := by
  intro i j hij hj heq
  have hd := depthAux_root f fuel p h
  set d := depthAux fuel f p with hdd
  -- iterating j ↦ i propagates to d ↦ i + (d - j) < d, putting a root
  -- before the depth
  have hiter : f^[d] p = f^[i + (d - j)] p := by
    have h1 : f^[d] p = f^[d - j] (f^[j] p) := by
      rw [← Function.iterate_add_apply]
      congr 1
      omega
    rw [h1, ← heq, ← Function.iterate_add_apply]
    congr 1
    omega
  have hlt : i + (d - j) < d := by omega
  exact depthAux_min f fuel p _ hlt (by rw [← hiter]; exact hd)

/-- Iterates stay in range under the invariant. -/
theorem iterate_lt (n : ℕ) (f : ℕ → ℕ) (hf : Forest n f) (p : ℕ) (hp : p < n) :
    ∀ k, f^[k] p < n := by
  intro k
  induction k with
  | zero => simpa using hp
  | succ k ih =>
      rw [Function.iterate_succ_apply']
      exact (hf _ ih).1

/-- Pigeonhole: under the invariant the depth of any in-range position
is below n. -/
theorem depth_lt (n : ℕ) (f : ℕ → ℕ) (hf : Forest n f) (p : ℕ) (hp : p < n) :
    depthAux n f p < n := by
  have hroot := (hf p hp).2
  by_contra hcon
  push_neg at hcon
  have hd : depthAux n f p ≤ n := depthAux_le f n p
  have hdn : depthAux n f p = n := by omega
  -- the n+1 chain elements f^[0] p, ..., f^[n] p are distinct and in
  -- range, contradicting that there are only n positions
  have hinj : Set.InjOn (fun j => f^[j] p) (Finset.range (n + 1)) := by
    intro i hi j hj hne2
    by_contra hne
    rcases Nat.lt_or_ge i j with hlt | hge
    · exact path_distinct f n p hroot i j hlt (by
        simp only [Finset.coe_range, Set.mem_Iio] at hj
        omega) hne2
    · have hlt : j < i := by omega
      exact path_distinct f n p hroot j i hlt (by
        simp only [Finset.coe_range, Set.mem_Iio] at hi
        omega) hne2.symm
  have hmaps : ∀ j ∈ Finset.range (n + 1), f^[j] p ∈ Finset.range n := by
    intro j _
    simpa using iterate_lt n f hf p hp j
  have hcard := Finset.card_le_card_of_injOn (fun j => f^[j] p) hmaps hinj
  simp at hcard

theorem s_findset_succ (fuel : ℕ) (f : ℕ → ℕ) (p : ℕ) :
    s_findset (fuel + 1) f p =
      if f p = p then (f, p)
      else (Function.update (s_findset fuel f (f p)).1 p
              (s_findset fuel f (f p)).2,
            (s_findset fuel f (f p)).2) := rfl

/-- Full characterization of s_findset with enough fuel: it returns
the root at the end of the chain, redirects exactly the traversed
non-root chain nodes to that root, and leaves every other entry of the
parent array unchanged. -/
theorem s_findset_spec (f : ℕ → ℕ) :
    ∀ (fuel : ℕ) (p : ℕ), isRoot f (f^[fuel] p) →
      (s_findset fuel f p).2 = f^[fuel] p ∧
      (∀ j, j < depthAux fuel f p →
        (s_findset fuel f p).1 (f^[j] p) = f^[fuel] p) ∧
      (∀ q, (∀ j, j < depthAux fuel f p → q ≠ f^[j] p) →
        (s_findset fuel f p).1 q = f q) := by
  intro fuel
  induction fuel with
  | zero =>
      intro p _
      refine ⟨rfl, ?_, ?_⟩
      · intro j hj; simp [depthAux] at hj
      · intro q _; rfl
  | succ fuel ih =>
      intro p h
      by_cases hp : f p = p
      · rw [s_findset_succ, if_pos hp]
        refine ⟨(isRoot_iterate_self f p _ hp).symm, ?_, ?_⟩
        · intro j hj
          rw [depthAux, if_pos hp] at hj
          omega
        · intro q _; rfl
      · have h' : isRoot f (f^[fuel] (f p)) := by
          rw [← Function.iterate_succ_apply]; exact h
        obtain ⟨ih1, ih2, ih3⟩ := ih (f p) h'
        have hdep : depthAux (fuel + 1) f p = depthAux fuel f (f p) + 1 := by
          rw [depthAux, if_neg hp]
        rw [s_findset_succ, if_neg hp]
        dsimp only
        refine ⟨?_, ?_, ?_⟩
        · rw [ih1, ← Function.iterate_succ_apply]
        · intro j hj
          rw [hdep] at hj
          match j with
          | 0 =>
              simp only [Function.iterate_zero_apply, Function.update_same]
              rw [ih1, ← Function.iterate_succ_apply]
          | j + 1 =>
              have hne : f^[j] (f p) ≠ p := by
                rw [← Function.iterate_succ_apply]
                have := path_distinct f (fuel + 1) p h 0 (j + 1)
                  (by omega) (by rw [hdep]; omega)
                simp only [Function.iterate_zero_apply] at this
                exact fun hc => this hc.symm
              rw [Function.iterate_succ_apply, Function.update_noteq hne,
                  ih2 j (by omega), ← Function.iterate_succ_apply]
        · intro q hq
          have hq0 : q ≠ p := by
            have := hq 0 (by rw [hdep]; omega)
            simpa using this
          rw [Function.update_noteq hq0]
          refine ih3 q ?_
          intro j hj
          have := hq (j + 1) (by rw [hdep]; omega)
          rw [Function.iterate_succ_apply] at this
          exact this

/-- Generic preservation: if f' agrees with f except that some entries
jump directly to the root of their own chain, then the forest
invariant and every representative are preserved. -/
theorem compress_preserves (n : ℕ) (f f' : ℕ → ℕ) (r : ℕ)
    (hn : 0 < n) (hf : Forest n f) (hr : r < n)
    (hchar : ∀ q, f' q = f q ∨ (f' q = r ∧ f^[n] q = r)) :
    Forest n f' ∧ ∀ q, q < n → f'^[n] q = f^[n] q := by
  have hjump : ∀ q k, ∃ m, k ≤ m ∧ f'^[k] q = f^[m] q := by
    intro q k
    induction k with
    | zero => exact ⟨0, Nat.le_refl 0, rfl⟩
    | succ k ih =>
        obtain ⟨m, hm, heq⟩ := ih
        rcases hchar (f^[m] q) with hsame | ⟨hjmp, hroot⟩
        · refine ⟨m + 1, by omega, ?_⟩
          rw [Function.iterate_succ_apply', heq, hsame]
          exact (Function.iterate_succ_apply' f m q).symm
        · refine ⟨n + m, by omega, ?_⟩
          rw [Function.iterate_succ_apply', heq, hjmp, ← hroot,
              ← Function.iterate_add_apply]
  have hsameroot : ∀ q, q < n → f'^[n] q = f^[n] q := by
    intro q hq
    obtain ⟨m, hm, heq⟩ := hjump q n
    rw [heq]
    exact iterate_stable f q n (hf q hq).2 m hm
  have hrootfix : ∀ z, isRoot f z → isRoot f' z := by
    intro z hz
    rcases hchar z with hsame | ⟨hjmp, hroot⟩
    · unfold isRoot at *; rw [hsame, hz]
    · have : r = z := by rw [← hroot, isRoot_iterate_self f z n hz]
      unfold isRoot; rw [hjmp, this]
  refine ⟨?_, hsameroot⟩
  intro q hq
  constructor
  · rcases hchar q with hsame | ⟨hjmp, _⟩
    · rw [hsame]; exact (hf q hq).1
    · rw [hjmp]; exact hr
  · rw [hsameroot q hq]
    exact hrootfix _ (hf q hq).2

/-- The array returned by s_findset keeps the forest invariant and all
representatives. -/
theorem s_findset_preserves (n : ℕ) (f : ℕ → ℕ) (p : ℕ)
    (hf : Forest n f) (hp : p < n) :
    Forest n (s_findset n f p).1 ∧
    ∀ q, q < n → ((s_findset n f p).1)^[n] q = f^[n] q := by
  have hroot := (hf p hp).2
  obtain ⟨_, h2, h3⟩ := s_findset_spec f n p hroot
  refine compress_preserves n f _ (f^[n] p) (by omega) hf
    (iterate_lt n f hf p hp n) ?_
  intro q
  by_cases hq : ∃ j, j < depthAux n f p ∧ q = f^[j] p
  · obtain ⟨j, hj, rfl⟩ := hq
    right
    refine ⟨h2 j hj, ?_⟩
    rw [← Function.iterate_add_apply]
    exact iterate_stable f p n hroot (n + j) (by omega)
  · push_neg at hq
    left
    exact h3 q hq

/-- Roots of the parent array are left untouched by a find. -/
theorem s_findset_fix_root (n : ℕ) (f : ℕ → ℕ) (p z : ℕ)
    (hroot : isRoot f (f^[n] p)) (hz : isRoot f z) :
    (s_findset n f p).1 z = z := by
  obtain ⟨_, _, h3⟩ := s_findset_spec f n p hroot
  have := h3 z (fun j hj heq => depthAux_min f n p j hj (heq ▸ hz))
  rw [this]; exact hz

/-- Pointing one root at another keeps the forest invariant, and
redirects exactly the representatives that were r1 to r2. -/
theorem union_update_preserves (n : ℕ) (f : ℕ → ℕ) (r1 r2 : ℕ)
    (hf : Forest n f) (_hr1 : r1 < n) (hr2 : r2 < n)
    (hroot1 : isRoot f r1) (hroot2 : isRoot f r2) :
    Forest n (Function.update f r1 r2) ∧
    ∀ q, q < n →
      (Function.update f r1 r2)^[n] q =
        if f^[n] q = r1 then r2 else f^[n] q := by
  by_cases h12 : r1 = r2
  · subst h12
    have hg : Function.update f r1 r1 = f := by
      funext x
      by_cases hx : x = r1
      · rw [hx, Function.update_same]; exact hroot1.symm
      · exact Function.update_noteq hx _ f
    rw [hg]
    refine ⟨hf, ?_⟩
    intro q hq
    by_cases hcase : f^[n] q = r1
    · rw [if_pos hcase, hcase]
    · rw [if_neg hcase]
  · set g := Function.update f r1 r2 with hgdef
    have hg_at : ∀ x, x ≠ r1 → g x = f x := fun x hx =>
      Function.update_noteq hx r2 f
    have hg_r1 : g r1 = r2 := Function.update_same r1 r2 f
    have hgroot2 : isRoot g r2 := by
      unfold isRoot
      rw [hg_at r2 (fun hc => h12 hc.symm)]
      exact hroot2
    -- below the first root, g follows f exactly
    have hsame : ∀ q, ∀ k, k ≤ depthAux n f q → g^[k] q = f^[k] q := by
      intro q k
      induction k with
      | zero => intro _; rfl
      | succ k ih =>
          intro hk
          have hne : f^[k] q ≠ r1 := by
            intro hc
            exact depthAux_min f n q k (by omega) (by rw [hc]; exact hroot1)
          rw [Function.iterate_succ_apply', Function.iterate_succ_apply',
              ih (by omega), hg_at _ hne]
    refine ⟨?_, ?_⟩
    · intro q hq
      constructor
      · by_cases hc : q = r1
        · rw [hc, hg_r1]; exact hr2
        · rw [hg_at q hc]; exact (hf q hq).1
      · set d := depthAux n f q with hd
        have hdroot : isRoot f (f^[d] q) := depthAux_root f n q (hf q hq).2
        have hdn : d < n := depth_lt n f hf q hq
        by_cases hc : f^[d] q = r1
        · have hstep : g^[d + 1] q = r2 := by
            rw [Function.iterate_succ_apply', hsame q d (by omega), hc, hg_r1]
          have : g^[n] q = r2 := by
            have hdec : n = (n - (d + 1)) + (d + 1) := by omega
            rw [hdec, Function.iterate_add_apply, hstep,
                isRoot_iterate_self g r2 _ hgroot2]
          rw [this]; exact hgroot2
        · have hgd : isRoot g (f^[d] q) := by
            unfold isRoot
            rw [hg_at _ hc]
            exact hdroot
          have : g^[n] q = f^[d] q := by
            have hdec : n = (n - d) + d := by omega
            rw [hdec, Function.iterate_add_apply, hsame q d (by omega),
                isRoot_iterate_self g _ _ hgd]
          rw [this]; exact hgd
    · intro q hq
      set d := depthAux n f q with hd
      have hdroot : isRoot f (f^[d] q) := depthAux_root f n q (hf q hq).2
      have hdn : d < n := depth_lt n f hf q hq
      have hfd : f^[n] q = f^[d] q :=
        iterate_stable f q d hdroot n (by omega)
      by_cases hc : f^[d] q = r1
      · have hstep : g^[d + 1] q = r2 := by
          rw [Function.iterate_succ_apply', hsame q d (by omega), hc, hg_r1]
        have hgn : g^[n] q = r2 := by
          have hdec : n = (n - (d + 1)) + (d + 1) := by omega
          rw [hdec, Function.iterate_add_apply, hstep,
              isRoot_iterate_self g r2 _ hgroot2]
        rw [hgn, hfd, if_pos hc]
      · have hgd : isRoot g (f^[d] q) := by
          unfold isRoot
          rw [hg_at _ hc]
          exact hdroot
        have hgn : g^[n] q = f^[d] q := by
          have hdec : n = (n - d) + d := by omega
          rw [hdec, Function.iterate_add_apply, hsame q d (by omega),
              isRoot_iterate_self g _ _ hgd]
        rw [hgn, hfd, if_neg hc]

/-- su_union applied to a forest with in-range arguments: the result is
again a forest and the two arguments now share one representative. -/
theorem s_union_spec (n : ℕ) (f : ℕ → ℕ) (a b : ℕ)
    (hf : Forest n f) (ha : a < n) (hb : b < n) :
    Forest n (s_union n f a b) ∧
    (s_union n f a b)^[n] a = (s_union n f a b)^[n] b := by
  have hroota := (hf a ha).2
  obtain ⟨ha2, _, _⟩ := s_findset_spec f n a hroota
  set f1 := (s_findset n f a).1 with hf1
  set r1 := (s_findset n f a).2 with hr1def
  obtain ⟨hff1, hpres1⟩ := s_findset_preserves n f a hf ha
  have hr1val : r1 = f^[n] a := ha2
  have hr1lt : r1 < n := by rw [hr1val]; exact iterate_lt n f hf a ha n
  have hr1rootf : isRoot f r1 := by
    show f r1 = r1
    rw [hr1val]
    exact hroota
  have hr1rootf1 : isRoot f1 r1 := s_findset_fix_root n f a r1 hroota hr1rootf
  have hrootb1 := (hff1 b hb).2
  obtain ⟨hb2, _, _⟩ := s_findset_spec f1 n b hrootb1
  set f2 := (s_findset n f1 b).1 with hf2
  set r2 := (s_findset n f1 b).2 with hr2def
  obtain ⟨hff2, hpres2⟩ := s_findset_preserves n f1 b hff1 hb
  have hr2val : r2 = f1^[n] b := hb2
  have hr2lt : r2 < n := by rw [hr2val]; exact iterate_lt n f1 hff1 b hb n
  have hr2rootf1 : isRoot f1 r2 := by
    show f1 r2 = r2
    rw [hr2val]
    exact hrootb1
  have hr2rootf2 : isRoot f2 r2 :=
    s_findset_fix_root n f1 b r2 hrootb1 hr2rootf1
  have hr1rootf2 : isRoot f2 r1 :=
    s_findset_fix_root n f1 b r1 hrootb1 hr1rootf1
  obtain ⟨hforest, hchar⟩ :=
    union_update_preserves n f2 r1 r2 hff2 hr1lt hr2lt hr1rootf2 hr2rootf2
  have hgdef : s_union n f a b = Function.update f2 r1 r2 := rfl
  rw [hgdef]
  refine ⟨hforest, ?_⟩
  have hA : f2^[n] a = r1 := by
    rw [hpres2 a ha, hpres1 a ha, hr1val]
  have hB : f2^[n] b = r2 := by
    rw [hpres2 b hb, hr2val]
  rw [hchar a ha, hchar b hb, hA, hB, if_pos rfl]
  by_cases hc : r2 = r1
  · rw [if_pos hc]
  · rw [if_neg hc]

theorem s_findset_fuel_irrel (f : ℕ → ℕ) (p : ℕ) (fuel fuel' : ℕ)
    (h : isRoot f (f^[fuel] p)) (hle : fuel ≤ fuel') :
    s_findset fuel' f p = s_findset fuel f p := by
  have hval : f^[fuel'] p = f^[fuel] p := iterate_stable f p fuel h fuel' hle
  have h' : isRoot f (f^[fuel'] p) := by rw [hval]; exact h
  obtain ⟨a2, a1, a3⟩ := s_findset_spec f fuel p h
  obtain ⟨b2, b1, b3⟩ := s_findset_spec f fuel' p h'
  have hdep := depthAux_congr f fuel fuel' p h hle
  rw [Prod.ext_iff]
  constructor
  · funext q
    by_cases hq : ∃ j, j < depthAux fuel f p ∧ q = f^[j] p
    · obtain ⟨j, hj, rfl⟩ := hq
      rw [b1 j (by rw [hdep]; exact hj), a1 j hj, hval]
    · push_neg at hq
      rw [b3 q (by rw [hdep]; exact hq), a3 q hq]
  · rw [a2, b2, hval]

/-- Models an arbitrary union-find client: a sequence of find and
union calls, as issued by s_adj and maze_generate. -/
inductive ufop where
  | find : ℕ → ufop
  | union : ℕ → ℕ → ufop

/-- One client call on the parent array, with the fuel matching the
array size. -/
def ufop_step (n : ℕ) (f : ℕ → ℕ) : ufop → (ℕ → ℕ)
  | ufop.find p => (s_findset n f p).1
  | ufop.union a b => s_union n f a b

/-- In-range arguments for one call. -/
def ufop_ok (n : ℕ) : ufop → Bool
  | ufop.find p => decide (p < n)
  | ufop.union a b => decide (a < n) && decide (b < n)

def opsWF (n : ℕ) (ops : List ufop) : Prop :=
  ∀ op ∈ ops, ufop_ok n op = true

/-- The parent array produced by the generator's initialisation
(sets[i] = i, maze.c line 345) followed by an arbitrary sequence of
client calls. -/
def uf_run (n : ℕ) (ops : List ufop) : ℕ → ℕ :=
  ops.foldl (ufop_step n) (fun p => p)

theorem forest_id (n : ℕ) : Forest n (fun p => p) := by
  intro p hp
  refine ⟨hp, ?_⟩
  show (fun p => p) ((fun (p : ℕ) => p)^[n] p) = (fun (p : ℕ) => p)^[n] p
  have hid : (fun (p : ℕ) => p) = id := rfl
  rw [hid, Function.iterate_id]
  rfl

theorem uf_run_forest (n : ℕ) (ops : List ufop) (hops : opsWF n ops) :
    Forest n (uf_run n ops) := by
  have main : ∀ (l : List ufop) (f : ℕ → ℕ), opsWF n l → Forest n f →
      Forest n (l.foldl (ufop_step n) f) := by
    intro l
    induction l with
    | nil => intro f _ hf; exact hf
    | cons op l ih =>
        intro f hops' hf
        rw [List.foldl_cons]
        refine ih _ (fun o ho => hops' o (List.mem_cons_of_mem _ ho)) ?_
        have hok := hops' op (List.mem_cons_self _ _)
        cases op with
        | find p =>
            have hp : p < n := by simpa [ufop_ok] using hok
            exact (s_findset_preserves n f p hf hp).1
        | union a b =>
            have hab : a < n ∧ b < n := by simpa [ufop_ok] using hok
            exact (s_union_spec n f a b hf hab.1 hab.2).1
  exact main ops _ hops (forest_id n)

/-- C9: after the generator initialises sets[i] = i and any sequence
of in-range find/union calls runs, the parent array is an in-range
acyclic forest; s_findset with the cell count as fuel terminates
(extra fuel changes nothing), returns the representative root of its
argument, rewrites exactly the traversed chain entries to point at
that root, leaves every other entry unchanged, and preserves both the
invariant and every cell's representative; s_union preserves the
invariant and makes its two arguments converge on a single
representative. -/
theorem union_find_ops (n : ℕ) (ops : List ufop) (p : ℕ)
    (hops : opsWF n ops) (hp : p < n) :
    Forest n (uf_run n ops) ∧
    (s_findset n (uf_run n ops) p).2 = rootAux n (uf_run n ops) p ∧
    isRoot (uf_run n ops) ((s_findset n (uf_run n ops) p).2) ∧
    (∀ extra, s_findset (n + extra) (uf_run n ops) p =
      s_findset n (uf_run n ops) p) ∧
    (∀ j, j < depthAux n (uf_run n ops) p →
      (s_findset n (uf_run n ops) p).1 ((uf_run n ops)^[j] p) =
        (s_findset n (uf_run n ops) p).2) ∧
    (∀ q, (∀ j, j < depthAux n (uf_run n ops) p →
        q ≠ (uf_run n ops)^[j] p) →
      (s_findset n (uf_run n ops) p).1 q = uf_run n ops q) ∧
    Forest n (s_findset n (uf_run n ops) p).1 ∧
    (∀ q, q < n → rootAux n (s_findset n (uf_run n ops) p).1 q =
      rootAux n (uf_run n ops) q) ∧
    (∀ a b, a < n → b < n →
      Forest n (s_union n (uf_run n ops) a b) ∧
      rootAux n (s_union n (uf_run n ops) a b) a =
        rootAux n (s_union n (uf_run n ops) a b) b) := by
  set f := uf_run n ops with hfdef
  have hf : Forest n f := uf_run_forest n ops hops
  have hroot := (hf p hp).2
  obtain ⟨h2, hcomp, hframe⟩ := s_findset_spec f n p hroot
  obtain ⟨hFf, hFpres⟩ := s_findset_preserves n f p hf hp
  refine ⟨hf, ?_, ?_, ?_, ?_, hframe, hFf, ?_, ?_⟩
  · rw [h2, rootAux_eq f n p hroot]
  · rw [h2]; exact hroot
  · intro extra
    exact s_findset_fuel_irrel f p n (n + extra) hroot (by omega)
  · intro j hj
    rw [hcomp j hj, h2]
  · intro q hq
    have hFq := (hFf q hq).2
    rw [rootAux_eq _ n q hFq, rootAux_eq f n q (hf q hq).2, hFpres q hq]
  · intro a b ha hb
    obtain ⟨hgF, hgEq⟩ := s_union_spec n f a b hf ha hb
    refine ⟨hgF, ?_⟩
    rw [rootAux_eq _ n a (hgF a ha).2, rootAux_eq _ n b (hgF b hb).2, hgEq]

theorem union_find_ops_witness :
    Forest 3 (uf_run 3 [ufop.union 0 1, ufop.find 0]) ∧
    (s_findset 3 (uf_run 3 [ufop.union 0 1, ufop.find 0]) 2).2 =
      rootAux 3 (uf_run 3 [ufop.union 0 1, ufop.find 0]) 2 ∧
    isRoot (uf_run 3 [ufop.union 0 1, ufop.find 0])
      ((s_findset 3 (uf_run 3 [ufop.union 0 1, ufop.find 0]) 2).2) ∧
    (∀ extra, s_findset (3 + extra) (uf_run 3 [ufop.union 0 1, ufop.find 0]) 2 =
      s_findset 3 (uf_run 3 [ufop.union 0 1, ufop.find 0]) 2) ∧
    (∀ j, j < depthAux 3 (uf_run 3 [ufop.union 0 1, ufop.find 0]) 2 →
      (s_findset 3 (uf_run 3 [ufop.union 0 1, ufop.find 0]) 2).1
          ((uf_run 3 [ufop.union 0 1, ufop.find 0])^[j] 2) =
        (s_findset 3 (uf_run 3 [ufop.union 0 1, ufop.find 0]) 2).2) ∧
    (∀ q, (∀ j, j < depthAux 3 (uf_run 3 [ufop.union 0 1, ufop.find 0]) 2 →
        q ≠ (uf_run 3 [ufop.union 0 1, ufop.find 0])^[j] 2) →
      (s_findset 3 (uf_run 3 [ufop.union 0 1, ufop.find 0]) 2).1 q =
        uf_run 3 [ufop.union 0 1, ufop.find 0] q) ∧
    Forest 3 (s_findset 3 (uf_run 3 [ufop.union 0 1, ufop.find 0]) 2).1 ∧
    (∀ q, q < 3 → rootAux 3 (s_findset 3 (uf_run 3 [ufop.union 0 1, ufop.find 0]) 2).1 q =
      rootAux 3 (uf_run 3 [ufop.union 0 1, ufop.find 0]) q) ∧
    (∀ a b, a < 3 → b < 3 →
      Forest 3 (s_union 3 (uf_run 3 [ufop.union 0 1, ufop.find 0]) a b) ∧
      rootAux 3 (s_union 3 (uf_run 3 [ufop.union 0 1, ufop.find 0]) a b) a =
        rootAux 3 (s_union 3 (uf_run 3 [ufop.union 0 1, ufop.find 0]) a b) b) :=
  union_find_ops 3 [ufop.union 0 1, ufop.find 0] 2
    (by unfold opsWF; decide) (by decide)

end Mazegen
